import Mathlib

/-!
Verification of the Mode-Polymorphic Executor described by the repository
(chapter07_distributed-learning/hybridize.ipynb): a multilayer perceptron
built from dense layers that can run either eagerly (each forward call
re-executes every layer on concrete data) or compiled (the first forward
call after `hybridize` records a symbolic graph which is cached and replayed
on all later calls).

The executor machinery itself (`HybridBlock.hybridize`, the gluon dispatch)
is part of the external MXNet framework and is not in this repository; the
notebook only calls it.  Following the specification, the executor is
modelled here from the spec's description, faithful to the behaviour the
notebook records (the printed layer-invocation logs and the JSON graph dump).
Tensors are modelled as matrices of rationals (lists of rows).
-/

namespace Hybridize

/-- Operation kinds that can appear as a node of a recorded symbolic graph:
`null` for inputs and parameters, `fullyConnected` for a dense layer's
linear transformation, `activation` for an activation such as relu. -/
inductive Op : Type
  | null : Op
  | fullyConnected : Nat → Op
  | activation : String → Op
deriving DecidableEq

/-- A node of a recorded graph: an operation, a name, and the indices of the
nodes it consumes (edges are data dependencies). -/
structure Node where
  op : Op
  name : String
  inputs : List Nat
deriving DecidableEq

/-- A recorded symbolic graph: nodes in topological order, the indices of the
argument nodes (input data and parameters), and the output heads. -/
structure Graph where
  nodes : List Node
  arg_nodes : List Nat
  heads : List Nat
deriving DecidableEq

/-- A dense layer: its scope name, the number of hidden units, its owned
weight matrix (one row per hidden unit) and bias vector, and whether a relu
activation follows the linear transformation. -/
structure Dense where
  name : String
  num_hidden : Nat
  weight : List (List ℚ)
  bias : List ℚ
  act : Bool
deriving DecidableEq

/-- A runtime value flowing through a graph: a matrix (an NDArray with a
batch dimension) or a vector (a bias parameter). -/
inductive Val : Type
  | m : List (List ℚ) → Val
  | v : List ℚ → Val
deriving DecidableEq

/-- Dot product of two rows. -/
def dot (xs ys : List ℚ) : ℚ := (List.zipWith (fun a b => a * b) xs ys).sum

/-- The rows produced by a fully connected transformation: each input row is
mapped against every weight row, plus the bias. -/
def fcRows (x W : List (List ℚ)) (b : List ℚ) : List (List ℚ) :=
  x.map (fun row => List.zipWith (fun w bj => dot row w + bj) W b)

/-- The input dimension a weight matrix expects. -/
def inDim (W : List (List ℚ)) : Nat := (W.headD []).length

/-- The fully connected operation, failing fast when the input rows do not
match the weight matrix's input dimension. -/
def fullyConnectedOp (x W : List (List ℚ)) (b : List ℚ) :
    Option (List (List ℚ)) :=
  if x.all (fun row => row.length = inDim W) then some (fcRows x W b) else none

/-- Elementwise relu on a matrix. -/
def reluRows (x : List (List ℚ)) : List (List ℚ) :=
  x.map (fun row => row.map (fun a => max a 0))

/-- Modelled from the spec: the backend argument `F` handed to a layer's
`hybrid_forward`.  MXNet passes `mxnet.ndarray` (values are concrete
NDArrays) in eager mode and `mxnet.symbol` (values are symbolic
placeholders) while recording a graph; this structure is what the layer code
observes.  `typeName` is the name of the type of the data argument. -/
structure Backend (α : Type) where
  name : String
  typeName : String
  fullyConnected : Dense → α → α
  relu : String → α → α

/-- The imperative backend: values are concrete matrices, with `none`
recording a shape failure. -/
def ndarray : Backend (Option (List (List ℚ))) where
  name := "mxnet.ndarray"
  typeName := "NDArray"
  fullyConnected := fun d a => a.bind (fun x => fullyConnectedOp x d.weight d.bias)
  relu := fun _ a => a.map reluRows

/-- The state of a symbolic recording: the nodes emitted so far and the index
of the node holding the current intermediate value. -/
structure SymState where
  nodes : List Node
  cur : Nat
deriving DecidableEq

/-- The symbolic backend: applying an operation emits graph nodes instead of
computing numbers.  A fully connected layer emits its weight node, its bias
node and a FullyConnected node consuming the current value and the two
parameters; relu emits an Activation node. -/
def symbol : Backend SymState where
  name := "mxnet.symbol"
  typeName := "Symbol"
  fullyConnected := fun d st =>
    let n := st.nodes.length
    { nodes := st.nodes ++
        [ ⟨Op.null, d.name ++ "_weight", []⟩,
          ⟨Op.null, d.name ++ "_bias", []⟩,
          ⟨Op.fullyConnected d.num_hidden, d.name ++ "_fwd",
            [st.cur, n, n + 1]⟩ ],
      cur := n + 2 }
  relu := fun nm st =>
    { nodes := st.nodes ++ [⟨Op.activation "relu", nm, [st.cur]⟩],
      cur := st.nodes.length }

/-- Apply one dense layer through a backend: the fully connected
transformation followed by relu when the layer has one. -/
def denseApply {α : Type} (F : Backend α) (d : Dense) (a : α) : α :=
  let y := F.fullyConnected d a
  if d.act then F.relu (d.name ++ "_relu_fwd") y else y

/-- Modelled from the spec: the per-layer forward logic of the network, the
`hybrid_forward` of the notebook's `Net` and of `HybridSequential`: apply
each layer's transformation in sequence through the backend `F`. -/
def hybrid_forward {α : Type} (F : Backend α) (layers : List Dense) (x : α) :
    α :=
  layers.foldl (fun a d => denseApply F d a) x

/-- Eager-mode forward evaluation: run the per-layer logic on the concrete
input through the imperative backend. -/
def eagerForward (layers : List Dense) (x : List (List ℚ)) :
    Option (List (List ℚ)) :=
  hybrid_forward ndarray layers (some x)

/-- The placeholder node a symbolic recording starts from. -/
def dataNode (dataName : String) : Node := ⟨Op.null, dataName, []⟩

/-- Modelled from the spec: record the network's computation by running the
per-layer logic once on a symbolic placeholder, producing a graph whose
nodes are operations and parameters and whose edges are data dependencies. -/
def traceNet (layers : List Dense) (dataName : String) : Graph :=
  let st := hybrid_forward symbol layers ⟨[dataNode dataName], 0⟩
  { nodes := st.nodes,
    arg_nodes := (List.range st.nodes.length).filter
      (fun i => match st.nodes[i]? with
                | some nd => nd.op = Op.null
                | none => False),
    heads := [st.cur] }

/-- Evaluate one graph node given the values of all earlier nodes and a
binding of argument names to values. -/
def evalNode (env : String → Option Val) (acc : List Val) (nd : Node) :
    Option Val :=
  match nd.op with
  | Op.null => env nd.name
  | Op.fullyConnected _ =>
      match nd.inputs with
      | [i, j, k] =>
          match acc[i]?, acc[j]?, acc[k]? with
          | some (Val.m x), some (Val.m W), some (Val.v b) =>
              (fullyConnectedOp x W b).map Val.m
          | _, _, _ => none
      | _ => none
  | Op.activation a =>
      if a = "relu" then
        match nd.inputs with
        | [i] =>
            match acc[i]? with
            | some (Val.m x) => some (Val.m (reluRows x))
            | _ => none
        | _ => none
      else none

/-- Evaluate a list of graph nodes in order, extending the accumulated list
of node values; fails as soon as one node fails. -/
def evalNodes (env : String → Option Val) :
    List Node → List Val → Option (List Val)
  | [], acc => some acc
  | nd :: ns, acc =>
      match evalNode env acc nd with
      | some v => evalNodes env ns (acc ++ [v])
      | none => none

/-- Evaluate a cached graph against concrete bindings: compute every node in
topological order and read off the single output head. -/
def evalGraph (g : Graph) (env : String → Option Val) :
    Option (List (List ℚ)) :=
  match evalNodes env g.nodes [] with
  | some vals =>
      match g.heads with
      | [h] =>
          match vals[h]? with
          | some (Val.m y) => some y
          | _ => none
      | _ => none
  | none => none

/-- Look a parameter up by its node name among the layers' owned
parameters. -/
def paramLookup : List Dense → String → Option Val
  | [], _ => none
  | d :: ds, n =>
      if n = d.name ++ "_weight" then some (Val.m d.weight)
      else if n = d.name ++ "_bias" then some (Val.v d.bias)
      else paramLookup ds n

/-- The bindings a compiled execution runs the cached graph against: the
placeholder name is bound to the concrete input, every other argument to the
layers' parameters. -/
def netBind (layers : List Dense) (dataName : String) (x : List (List ℚ)) :
    String → Option Val :=
  fun n => if n = dataName then some (Val.m x) else paramLookup layers n

/-- The network's parameter names resolve to their own layers' parameters
and do not clash with the data placeholder name. -/
def paramsResolvable (layers : List Dense) (dataName : String) : Prop :=
  ∀ d ∈ layers,
    d.name ++ "_weight" ≠ dataName ∧
    d.name ++ "_bias" ≠ dataName ∧
    paramLookup layers (d.name ++ "_weight") = some (Val.m d.weight) ∧
    paramLookup layers (d.name ++ "_bias") = some (Val.v d.bias)

instance (layers : List Dense) (dataName : String) :
    Decidable (paramsResolvable layers dataName) := by
  unfold paramsResolvable; infer_instance

/-- Modelled from the spec: a network instance.  It owns its ordered layers,
an execution mode flag (`hybridized` false = eager, true = compiled), the
cached graph of compiled mode, and — for stating the invariants the spec
describes — the number of times the per-layer forward logic has run and the
log of the (data type name, backend name) pairs it observed, as printed by
the notebook's `Net.hybrid_forward`. -/
structure NetState where
  layers : List Dense
  hybridized : Bool
  cachedGraph : Option Graph
  fwdCalls : Nat
  callLog : List (String × String)
deriving DecidableEq

/-- A freshly constructed network: eager mode, nothing cached, no per-layer
invocations yet. -/
def mkNet (layers : List Dense) : NetState :=
  { layers := layers, hybridized := false, cachedGraph := none,
    fwdCalls := 0, callLog := [] }

/-- The notebook's `get_net`: a 3-layer MLP, Dense(256, relu), Dense(128,
relu), Dense(2), with parameters initialized to the given values (the input
dimension 512 is fixed by the first weight's shape). -/
def get_net (W1 : List (List ℚ)) (b1 : List ℚ) (W2 : List (List ℚ))
    (b2 : List ℚ) (W3 : List (List ℚ)) (b3 : List ℚ) : NetState :=
  mkNet
    [ ⟨"hybridsequential1_dense0", 256, W1, b1, true⟩,
      ⟨"hybridsequential1_dense1", 128, W2, b2, true⟩,
      ⟨"hybridsequential1_dense2", 2, W3, b3, false⟩ ]

/-- Modelled from the spec: `hybridize` switches the instance to compiled
mode. -/
def hybridize (s : NetState) : NetState := { s with hybridized := true }

/-- Modelled from the spec: `forward` — calling the network on a concrete
input.  In eager mode the per-layer logic runs on the concrete input through
the imperative backend.  In compiled mode, the first call runs the per-layer
logic once on a symbolic placeholder through the symbolic backend, caches
the recorded graph, and evaluates it; every later call evaluates the cached
graph without invoking the per-layer logic again. -/
def forward (s : NetState) (x : List (List ℚ)) :
    Option (List (List ℚ)) × NetState :=
  if s.hybridized then
    match s.cachedGraph with
    | some g => (evalGraph g (netBind s.layers "data" x), s)
    | none =>
        let g := traceNet s.layers "data"
        (evalGraph g (netBind s.layers "data" x),
         { s with cachedGraph := some g, fwdCalls := s.fwdCalls + 1,
                  callLog := s.callLog ++ [(symbol.typeName, symbol.name)] })
  else
    (eagerForward s.layers x,
     { s with fwdCalls := s.fwdCalls + 1,
              callLog := s.callLog ++ [(ndarray.typeName, ndarray.name)] })

/-- Run a sequence of forward calls, keeping only the evolving state. -/
def runForwards (s : NetState) (xs : List (List (List ℚ))) : NetState :=
  xs.foldl (fun t x => (forward t x).2) s

/-- An operation a client can perform on a network instance. -/
inductive NetOp : Type
  | fwd : List (List ℚ) → NetOp
  | hyb : NetOp

/-- Whether an operation is the hybridize switch. -/
def NetOp.isHyb : NetOp → Bool
  | NetOp.fwd _ => false
  | NetOp.hyb => true

/-- Apply one client operation to the network state. -/
def applyOp (s : NetState) : NetOp → NetState
  | NetOp.fwd x => (forward s x).2
  | NetOp.hyb => hybridize s

/-- Run a sequence of client operations. -/
def runOps (s : NetState) (ops : List NetOp) : NetState :=
  ops.foldl applyOp s

/-- The three nodes a dense layer's linear transformation emits into a
recording whose node list has length `n` and current value index `c`. -/
def fcBlock (d : Dense) (n c : Nat) : List Node :=
  [ ⟨Op.null, d.name ++ "_weight", []⟩,
    ⟨Op.null, d.name ++ "_bias", []⟩,
    ⟨Op.fullyConnected d.num_hidden, d.name ++ "_fwd", [c, n, n + 1]⟩ ]

/-- The invariant tying a symbolic recording state to its evaluation: the
nodes emitted so far evaluate to `acc`, one value per node, and the current
value index holds the matrix `mx`. -/
def inv (env : String → Option Val) (st : SymState) (acc : List Val)
    (mx : List (List ℚ)) : Prop :=
  evalNodes env st.nodes [] = some acc ∧ acc.length = st.nodes.length ∧
    acc[st.cur]? = some (Val.m mx)

/-- The states reachable from `s` by forward calls: the layers and the mode
never change, and the cache either stays what it was or — when nothing was
cached — becomes the recorded trace of the layers. -/
def evolvedFrom (s t : NetState) : Prop :=
  t.layers = s.layers ∧ t.hybridized = s.hybridized ∧
    (t.cachedGraph = s.cachedGraph ∨
      (s.cachedGraph = none ∧
        t.cachedGraph = some (traceNet s.layers "data")))

/-- Well-formedness of one dense layer against an expected input dimension:
one weight row per hidden unit (at least one), rows of the input dimension,
and a bias entry per hidden unit. -/
def denseWf (inD : Nat) (d : Dense) : Prop :=
  d.weight.length = d.num_hidden ∧ d.num_hidden ≠ 0 ∧
    (∀ r ∈ d.weight, r.length = inD) ∧ d.bias.length = d.num_hidden

/-- Well-formedness of a chain of layers: each layer's input dimension is
the previous layer's hidden size. -/
def netWf : Nat → List Dense → Prop
  | _, [] => True
  | inD, d :: ds => denseWf inD d ∧ netWf d.num_hidden ds

/-- The output dimension of a chain of layers fed rows of width `k`. -/
def outDim : Nat → List Dense → Nat
  | k, [] => k
  | _, d :: ds => outDim d.num_hidden ds

/-- A graph's nodes are topologically ordered when every node only consumes
nodes with strictly smaller indices. -/
def topoOk (g : Graph) : Bool :=
  (List.range g.nodes.length).all (fun i =>
    match g.nodes[i]? with
    | some nd => nd.inputs.all (fun j => j < i)
    | none => true)

/-- An all-zero weight matrix of the given shape, for concrete instances. -/
def zeros (m n : Nat) : List (List ℚ) :=
  List.replicate m (List.replicate n (0 : ℚ))

/-- An all-zero bias vector of the given length, for concrete instances. -/
def zvec (m : Nat) : List ℚ := List.replicate m (0 : ℚ)

end Hybridize

namespace Hybridize

lemma hybrid_forward_nil {α : Type} (F : Backend α) (x : α) :
    hybrid_forward F [] x = x := rfl

lemma hybrid_forward_cons {α : Type} (F : Backend α) (d : Dense)
    (ds : List Dense) (x : α) :
    hybrid_forward F (d :: ds) x = hybrid_forward F ds (denseApply F d x) :=
  rfl

lemma denseApply_ndarray_none (d : Dense) :
    denseApply ndarray d none = none := by
  cases h : d.act <;> simp [denseApply, ndarray, h]

lemma hybrid_forward_ndarray_none (ds : List Dense) :
    hybrid_forward ndarray ds none = none := by
  induction ds with
  | nil => rfl
  | cons d ds ih =>
      rw [hybrid_forward_cons, denseApply_ndarray_none]
      exact ih

lemma evalNodes_append (env : String → Option Val) (ns ms : List Node)
    (acc : List Val) :
    evalNodes env (ns ++ ms) acc =
      (evalNodes env ns acc).bind (fun acc2 => evalNodes env ms acc2) := by
  induction ns generalizing acc with
  | nil => simp [evalNodes]
  | cons nd ns ih =>
      simp only [List.cons_append, evalNodes]
      cases evalNode env acc nd with
      | none => simp
      | some v => simp [ih]

lemma denseApply_symbol_act (d : Dense) (st : SymState) (h : d.act = true) :
    denseApply symbol d st =
      { nodes := st.nodes ++ (fcBlock d st.nodes.length st.cur ++
          [⟨Op.activation "relu", d.name ++ "_relu_fwd",
            [st.nodes.length + 2]⟩]),
        cur := st.nodes.length + 3 } := by
  simp [denseApply, symbol, h, fcBlock, List.append_assoc]

lemma denseApply_symbol_noact (d : Dense) (st : SymState) (h : d.act = false) :
    denseApply symbol d st =
      { nodes := st.nodes ++ fcBlock d st.nodes.length st.cur,
        cur := st.nodes.length + 2 } := by
  simp [denseApply, symbol, h, fcBlock]

lemma symbol_nodes_mono (ds : List Dense) :
    ∀ st : SymState, ∃ ext, (hybrid_forward symbol ds st).nodes = st.nodes ++ ext := by
  induction ds with
  | nil => intro st; exact ⟨[], by simp [hybrid_forward_nil]⟩
  | cons d ds ih =>
      intro st
      rw [hybrid_forward_cons]
      cases h : d.act with
      | true =>
          rw [denseApply_symbol_act d st h]
          obtain ⟨ext, hext⟩ := ih
            { nodes := st.nodes ++ (fcBlock d st.nodes.length st.cur ++
                [⟨Op.activation "relu", d.name ++ "_relu_fwd",
                  [st.nodes.length + 2]⟩]),
              cur := st.nodes.length + 3 }
          refine ⟨(fcBlock d st.nodes.length st.cur ++
              [⟨Op.activation "relu", d.name ++ "_relu_fwd",
                [st.nodes.length + 2]⟩]) ++ ext, ?_⟩
          rw [hext]
          simp [List.append_assoc]
      | false =>
          rw [denseApply_symbol_noact d st h]
          obtain ⟨ext, hext⟩ := ih
            { nodes := st.nodes ++ fcBlock d st.nodes.length st.cur,
              cur := st.nodes.length + 2 }
          refine ⟨fcBlock d st.nodes.length st.cur ++ ext, ?_⟩
          rw [hext]
          simp [List.append_assoc]

end Hybridize

namespace Hybridize

lemma evalNodes_fcBlock (env : String → Option Val) (d : Dense)
    (acc : List Val) (mx : List (List ℚ)) (cur : Nat)
    (hw : env (d.name ++ "_weight") = some (Val.m d.weight))
    (hb : env (d.name ++ "_bias") = some (Val.v d.bias))
    (hcur : acc[cur]? = some (Val.m mx)) :
    evalNodes env (fcBlock d acc.length cur) acc =
      (fullyConnectedOp mx d.weight d.bias).map
        (fun z => acc ++ [Val.m d.weight, Val.v d.bias, Val.m z]) := by
  have hcl : cur < acc.length := by
    rcases List.getElem?_eq_some_iff.mp hcur with ⟨h, _⟩
    exact h
  have h1 : ((acc ++ [Val.m d.weight]) ++ [Val.v d.bias])[cur]? =
      some (Val.m mx) := by
    rw [List.getElem?_append_left (by simp; omega),
      List.getElem?_append_left hcl]
    exact hcur
  have h2 : ((acc ++ [Val.m d.weight]) ++ [Val.v d.bias])[acc.length]? =
      some (Val.m d.weight) := by
    rw [List.getElem?_append_left (by simp)]
    exact List.getElem?_concat_length acc (Val.m d.weight)
  have h3 : ((acc ++ [Val.m d.weight]) ++ [Val.v d.bias])[acc.length + 1]? =
      some (Val.v d.bias) := by
    have := List.getElem?_concat_length (acc ++ [Val.m d.weight])
      (Val.v d.bias)
    simpa using this
  cases hfc : fullyConnectedOp mx d.weight d.bias with
  | none =>
      simp only [fcBlock, evalNodes, evalNode, hw, hb, h1, h2, h3, hfc,
        Option.map_none']
  | some z =>
      simp only [fcBlock, evalNodes, evalNode, hw, hb, h1, h2, h3, hfc,
        Option.map_some']
      simp [List.append_assoc]

end Hybridize

namespace Hybridize

lemma evalNodes_reluNode (env : String → Option Val) (nm : String)
    (acc : List Val) (i : Nat) (mx : List (List ℚ))
    (hi : acc[i]? = some (Val.m mx)) :
    evalNodes env [⟨Op.activation "relu", nm, [i]⟩] acc =
      some (acc ++ [Val.m (reluRows mx)]) := by
  simp [evalNodes, evalNode, hi]

lemma denseApply_step (env : String → Option Val) (d : Dense)
    (st : SymState) (acc : List Val) (mx : List (List ℚ))
    (hw : env (d.name ++ "_weight") = some (Val.m d.weight))
    (hb : env (d.name ++ "_bias") = some (Val.v d.bias))
    (hinv : inv env st acc mx) :
    (∀ y, denseApply ndarray d (some mx) = some y →
        ∃ acc2, inv env (denseApply symbol d st) acc2 y) ∧
    (denseApply ndarray d (some mx) = none →
        evalNodes env (denseApply symbol d st).nodes [] = none) := by
  obtain ⟨he, hl, hc⟩ := hinv
  have hblock := evalNodes_fcBlock env d acc mx st.cur hw hb hc
  rw [hl] at hblock
  cases ha : d.act with
  | true =>
      rw [denseApply_symbol_act d st ha]
      cases hfc : fullyConnectedOp mx d.weight d.bias with
      | none =>
          rw [hfc] at hblock
          constructor
          · intro y hy
            exfalso
            simp [denseApply, ndarray, ha, hfc] at hy
          · intro _
            rw [evalNodes_append, he, Option.some_bind, evalNodes_append,
              hblock]
            rfl
      | some z =>
          rw [hfc] at hblock
          constructor
          · intro y hy
            have hy2 : reluRows z = y := by
              simpa [denseApply, ndarray, ha, hfc] using hy
            subst hy2
            have hmid : (acc ++ [Val.m d.weight, Val.v d.bias,
                Val.m z])[st.nodes.length + 2]? = some (Val.m z) := by
              rw [← hl, List.getElem?_append_right (by omega)]
              simp
            refine ⟨(acc ++ [Val.m d.weight, Val.v d.bias, Val.m z]) ++
              [Val.m (reluRows z)], ?_, ?_, ?_⟩
            · rw [evalNodes_append, he, Option.some_bind, evalNodes_append,
                hblock, Option.map_some', Option.some_bind,
                evalNodes_reluNode env _ _ _ z hmid]
            · simp [fcBlock]
              omega
            · have : (acc ++ [Val.m d.weight, Val.v d.bias,
                  Val.m z]).length = st.nodes.length + 3 := by
                simp
                omega
              rw [← this]
              exact List.getElem?_concat_length _ _
          · intro hy
            exfalso
            simp [denseApply, ndarray, ha, hfc] at hy
  | false =>
      rw [denseApply_symbol_noact d st ha]
      cases hfc : fullyConnectedOp mx d.weight d.bias with
      | none =>
          rw [hfc] at hblock
          constructor
          · intro y hy
            exfalso
            simp [denseApply, ndarray, ha, hfc] at hy
          · intro _
            rw [evalNodes_append, he, Option.some_bind, hblock]
            rfl
      | some z =>
          rw [hfc] at hblock
          constructor
          · intro y hy
            have hy2 : z = y := by
              simpa [denseApply, ndarray, ha, hfc] using hy
            subst hy2
            refine ⟨acc ++ [Val.m d.weight, Val.v d.bias, Val.m z],
              ?_, ?_, ?_⟩
            · rw [evalNodes_append, he, Option.some_bind, hblock,
                Option.map_some']
            · simp [fcBlock]
              omega
            · show (acc ++ [Val.m d.weight, Val.v d.bias,
                  Val.m z])[st.nodes.length + 2]? = some (Val.m z)
              rw [← hl, List.getElem?_append_right (by omega)]
              simp
          · intro hy
            exfalso
            simp [denseApply, ndarray, ha, hfc] at hy

end Hybridize

namespace Hybridize

lemma trace_correct (env : String → Option Val) (ds : List Dense) :
    ∀ (st : SymState) (acc : List Val) (mx : List (List ℚ)),
    (∀ d ∈ ds, env (d.name ++ "_weight") = some (Val.m d.weight) ∧
        env (d.name ++ "_bias") = some (Val.v d.bias)) →
    inv env st acc mx →
    (∀ y, hybrid_forward ndarray ds (some mx) = some y →
        ∃ acc2, inv env (hybrid_forward symbol ds st) acc2 y) ∧
    (hybrid_forward ndarray ds (some mx) = none →
        evalNodes env (hybrid_forward symbol ds st).nodes [] = none) := by
  induction ds with
  | nil =>
      intro st acc mx _ hinv
      constructor
      · intro y hy
        rw [hybrid_forward_nil] at hy
        injection hy with h
        subst h
        exact ⟨acc, hinv⟩
      · intro hy
        rw [hybrid_forward_nil] at hy
        cases hy
  | cons d ds ih =>
      intro st acc mx henv hinv
      rw [hybrid_forward_cons, hybrid_forward_cons]
      have hd := henv d (List.mem_cons_self d ds)
      have hstep := denseApply_step env d st acc mx hd.1 hd.2 hinv
      have henv2 : ∀ e ∈ ds,
          env (e.name ++ "_weight") = some (Val.m e.weight) ∧
          env (e.name ++ "_bias") = some (Val.v e.bias) :=
        fun e he => henv e (List.mem_cons_of_mem d he)
      cases hda : denseApply ndarray d (some mx) with
      | some y0 =>
          obtain ⟨acc2, hinv2⟩ := hstep.1 y0 hda
          exact ih (denseApply symbol d st) acc2 y0 henv2 hinv2
      | none =>
          have hnone := hstep.2 hda
          constructor
          · intro y hy
            rw [hybrid_forward_ndarray_none] at hy
            cases hy
          · intro _
            obtain ⟨ext, hext⟩ :=
              symbol_nodes_mono ds (denseApply symbol d st)
            rw [hext, evalNodes_append, hnone]
            rfl

lemma netBind_resolves (layers : List Dense) (dataName : String)
    (x : List (List ℚ)) (hres : paramsResolvable layers dataName) :
    ∀ d ∈ layers,
      netBind layers dataName x (d.name ++ "_weight") =
        some (Val.m d.weight) ∧
      netBind layers dataName x (d.name ++ "_bias") =
        some (Val.v d.bias) := by
  intro d hd
  obtain ⟨hw1, hb1, hw2, hb2⟩ := hres d hd
  constructor
  · simp [netBind, hw1, hw2]
  · simp [netBind, hb1, hb2]

lemma evalGraph_traceNet (layers : List Dense) (dataName : String)
    (x : List (List ℚ)) (hres : paramsResolvable layers dataName) :
    evalGraph (traceNet layers dataName) (netBind layers dataName x) =
      eagerForward layers x := by
  have henv := netBind_resolves layers dataName x hres
  have hinv0 : inv (netBind layers dataName x)
      ⟨[dataNode dataName], 0⟩ [Val.m x] x := by
    refine ⟨?_, rfl, rfl⟩
    simp [evalNodes, evalNode, dataNode, netBind]
  have h := trace_correct (netBind layers dataName x) layers
    ⟨[dataNode dataName], 0⟩ [Val.m x] x henv hinv0
  cases hea : eagerForward layers x with
  | some y =>
      obtain ⟨acc2, ha, hlen, hc⟩ := h.1 y hea
      simp [evalGraph, traceNet, ha, hc]
  | none =>
      have hnone := h.2 hea
      simp [evalGraph, traceNet, hnone]

end Hybridize

namespace Hybridize

lemma forward_cached (s : NetState) (g : Graph) (x : List (List ℚ))
    (h1 : s.hybridized = true) (h2 : s.cachedGraph = some g) :
    forward s x = (evalGraph g (netBind s.layers "data" x), s) := by
  simp [forward, h1, h2]

lemma forward_fresh (s : NetState) (x : List (List ℚ))
    (h1 : s.hybridized = true) (h2 : s.cachedGraph = none) :
    forward s x =
      (evalGraph (traceNet s.layers "data") (netBind s.layers "data" x),
       { s with cachedGraph := some (traceNet s.layers "data"),
                fwdCalls := s.fwdCalls + 1,
                callLog := s.callLog ++ [(symbol.typeName, symbol.name)] }) := by
  simp [forward, h1, h2]

lemma forward_eager_eq (s : NetState) (x : List (List ℚ))
    (h1 : s.hybridized = false) :
    forward s x = (eagerForward s.layers x,
      { s with fwdCalls := s.fwdCalls + 1,
               callLog := s.callLog ++ [(ndarray.typeName, ndarray.name)] }) := by
  simp [forward, h1]

lemma forward_layers_eq (s : NetState) (x : List (List ℚ)) :
    ((forward s x).2).layers = s.layers := by
  cases h1 : s.hybridized <;> [skip; cases h2 : s.cachedGraph] <;>
    simp [forward, h1]
  · simp [*]
  · simp [*]

lemma forward_mode_eq (s : NetState) (x : List (List ℚ)) :
    ((forward s x).2).hybridized = s.hybridized := by
  cases h1 : s.hybridized <;> [skip; cases h2 : s.cachedGraph] <;>
    simp [forward, h1]
  · simp [*]
  · simp [*]

lemma evolvedFrom_forward (s t : NetState) (x : List (List ℚ))
    (h : evolvedFrom s t) : evolvedFrom s (forward t x).2 := by
  obtain ⟨hl, hh, hc⟩ := h
  cases h1 : t.hybridized with
  | false =>
      rw [forward_eager_eq t x h1]
      exact ⟨hl, hh, hc⟩
  | true =>
      cases h2 : t.cachedGraph with
      | some g =>
          rw [forward_cached t g x h1 h2]
          exact ⟨hl, hh, hc⟩
      | none =>
          rw [forward_fresh t x h1 h2]
          refine ⟨hl, hh, Or.inr ⟨?_, ?_⟩⟩
          · rcases hc with hc | ⟨_, hsome⟩
            · rw [← hc, h2]
            · rw [hsome] at h2; cases h2
          · simp [hl]

lemma forward_out_eq (s t : NetState) (x : List (List ℚ))
    (h : evolvedFrom s t) : (forward t x).1 = (forward s x).1 := by
  obtain ⟨hl, hh, hc⟩ := h
  cases h1 : s.hybridized with
  | false =>
      rw [h1] at hh
      rw [forward_eager_eq t x hh, forward_eager_eq s x h1, hl]
  | true =>
      rw [h1] at hh
      cases h2 : s.cachedGraph with
      | some g =>
          rcases hc with hc | ⟨hnone, _⟩
          · rw [h2] at hc
            rw [forward_cached t g x hh hc, forward_cached s g x h1 h2, hl]
          · rw [hnone] at h2; cases h2
      | none =>
          rcases hc with hc | ⟨_, hsome⟩
          · rw [h2] at hc
            rw [forward_fresh t x hh hc, forward_fresh s x h1 h2, hl]
          · rw [forward_cached t _ x hh hsome, forward_fresh s x h1 h2, hl]

lemma runForwards_nil (s : NetState) : runForwards s [] = s := rfl

lemma runForwards_cons (s : NetState) (x : List (List ℚ))
    (xs : List (List (List ℚ))) :
    runForwards s (x :: xs) = runForwards ((forward s x).2) xs := rfl

lemma evolvedFrom_runForwards (s : NetState) (xs : List (List (List ℚ))) :
    ∀ t, evolvedFrom s t → evolvedFrom s (runForwards t xs) := by
  induction xs with
  | nil => intro t h; exact h
  | cons x xs ih =>
      intro t h
      rw [runForwards_cons]
      exact ih _ (evolvedFrom_forward s t x h)

end Hybridize

namespace Hybridize

lemma runForwards_cached_counts (xs : List (List (List ℚ))) :
    ∀ (s : NetState) (g : Graph), s.hybridized = true →
      s.cachedGraph = some g →
      (runForwards s xs).fwdCalls = s.fwdCalls ∧
        (runForwards s xs).callLog = s.callLog := by
  induction xs with
  | nil => intro s g _ _; exact ⟨rfl, rfl⟩
  | cons x xs ih =>
      intro s g h1 h2
      rw [runForwards_cons, forward_cached s g x h1 h2]
      exact ih s g h1 h2

lemma forward_fwdCalls_eager (s : NetState) (x : List (List ℚ))
    (h1 : s.hybridized = false) :
    ((forward s x).2).fwdCalls = s.fwdCalls + 1 := by
  rw [forward_eager_eq s x h1]

lemma forward_callLog_eager (s : NetState) (x : List (List ℚ))
    (h1 : s.hybridized = false) :
    ((forward s x).2).callLog =
      s.callLog ++ [(ndarray.typeName, ndarray.name)] := by
  rw [forward_eager_eq s x h1]

lemma runForwards_eager_counts (xs : List (List (List ℚ))) :
    ∀ s : NetState, s.hybridized = false →
      (runForwards s xs).fwdCalls = s.fwdCalls + xs.length ∧
        (runForwards s xs).callLog =
          s.callLog ++ xs.map (fun _ => (ndarray.typeName, ndarray.name)) := by
  induction xs with
  | nil => intro s _; simp [runForwards_nil]
  | cons x xs ih =>
      intro s h1
      have hmode : ((forward s x).2).hybridized = false := by
        rw [forward_mode_eq]; exact h1
      obtain ⟨hn, hlog⟩ := ih ((forward s x).2) hmode
      rw [runForwards_cons]
      constructor
      · rw [hn, forward_fwdCalls_eager s x h1]
        simp
        omega
      · rw [hlog, forward_callLog_eager s x h1]
        simp

end Hybridize

namespace Hybridize

lemma get_net_resolvable (W1 : List (List ℚ)) (b1 : List ℚ)
    (W2 : List (List ℚ)) (b2 : List ℚ) (W3 : List (List ℚ)) (b3 : List ℚ) :
    paramsResolvable (get_net W1 b1 W2 b2 W3 b3).layers "data" := by
  intro d hd
  simp [get_net, mkNet] at hd
  rcases hd with h | h | h <;> subst h <;>
    exact ⟨by simp, by simp, by simp [paramLookup], by simp [paramLookup]⟩

lemma inDim_eq (W : List (List ℚ)) (k : Nat) (hne : W ≠ [])
    (hWr : ∀ r ∈ W, r.length = k) : inDim W = k := by
  cases W with
  | nil => exact absurd rfl hne
  | cons w ws => exact hWr w (List.mem_cons_self w ws)

lemma fullyConnectedOp_ok (x W : List (List ℚ)) (b : List ℚ) (k : Nat)
    (hin : ∀ r ∈ x, r.length = k) (hid : inDim W = k) :
    fullyConnectedOp x W b = some (fcRows x W b) := by
  rw [fullyConnectedOp, if_pos]
  rw [List.all_eq_true]
  intro r hr
  simp [hid, hin r hr]

lemma fcRows_shape (x W : List (List ℚ)) (b : List ℚ) (m : Nat)
    (hW : W.length = m) (hb : b.length = m) :
    (fcRows x W b).length = x.length ∧ ∀ r ∈ fcRows x W b, r.length = m := by
  constructor
  · simp [fcRows]
  · intro r hr
    simp [fcRows] at hr
    obtain ⟨row, _, rfl⟩ := hr
    simp [hW, hb]

lemma reluRows_shape (x : List (List ℚ)) (k : Nat)
    (hin : ∀ r ∈ x, r.length = k) :
    (reluRows x).length = x.length ∧ ∀ r ∈ reluRows x, r.length = k := by
  constructor
  · simp [reluRows]
  · intro r hr
    simp [reluRows] at hr
    obtain ⟨row, hrow, rfl⟩ := hr
    simp [hin row hrow]

lemma denseApply_ndarray_ok (d : Dense) (x : List (List ℚ)) (k : Nat)
    (hne : d.weight ≠ []) (hWr : ∀ r ∈ d.weight, r.length = k)
    (hW : d.weight.length = d.num_hidden) (hb : d.bias.length = d.num_hidden)
    (hin : ∀ r ∈ x, r.length = k) :
    ∃ y, denseApply ndarray d (some x) = some y ∧ y.length = x.length ∧
      ∀ r ∈ y, r.length = d.num_hidden := by
  have hfc := fullyConnectedOp_ok x d.weight d.bias k hin
    (inDim_eq d.weight k hne hWr)
  have hsh := fcRows_shape x d.weight d.bias d.num_hidden hW hb
  cases ha : d.act with
  | false =>
      refine ⟨fcRows x d.weight d.bias, ?_, hsh.1, hsh.2⟩
      simp [denseApply, ndarray, ha, hfc]
  | true =>
      have hrl := reluRows_shape (fcRows x d.weight d.bias) d.num_hidden hsh.2
      refine ⟨reluRows (fcRows x d.weight d.bias), ?_, ?_, hrl.2⟩
      · simp [denseApply, ndarray, ha, hfc]
      · rw [hrl.1, hsh.1]

end Hybridize

namespace Hybridize

/-- Claim C1: for a network as built by get_net with parameters initialized
once and a fixed input, forward returns the same output in eager mode and in
compiled mode — both on the first compiled call, which records the graph,
and on a later call replaying the cache: switching the instance to compiled
mode does not change what forward returns. -/
theorem c1_eager_eq_compiled (W1 : List (List ℚ)) (b1 : List ℚ)
    (W2 : List (List ℚ)) (b2 : List ℚ) (W3 : List (List ℚ)) (b3 : List ℚ)
    (x : List (List ℚ)) :
    (forward (hybridize (get_net W1 b1 W2 b2 W3 b3)) x).1 =
      (forward (get_net W1 b1 W2 b2 W3 b3) x).1 ∧
    (forward ((forward (hybridize (get_net W1 b1 W2 b2 W3 b3)) x).2) x).1 =
      (forward (get_net W1 b1 W2 b2 W3 b3) x).1 := by
  have hres := get_net_resolvable W1 b1 W2 b2 W3 b3
  have heq := evalGraph_traceNet (get_net W1 b1 W2 b2 W3 b3).layers "data" x
    hres
  have hfst := forward_fresh (hybridize (get_net W1 b1 W2 b2 W3 b3)) x rfl rfl
  have heager := forward_eager_eq (get_net W1 b1 W2 b2 W3 b3) x rfl
  constructor
  · rw [hfst, heager]
    exact heq
  · rw [hfst]
    rw [forward_cached _
      (traceNet (hybridize (get_net W1 b1 W2 b2 W3 b3)).layers "data") x
      rfl rfl]
    rw [heager]
    exact heq

/-- Claim C2: once a network is switched to compiled mode, the per-layer
forward logic runs exactly once — on the first forward call, which records
the graph — and never again over any further sequence of forward calls with
arbitrary inputs. -/
theorem c2_hybrid_forward_invoked_once (s : NetState)
    (xs : List (List (List ℚ)))
    (h1 : s.hybridized = true) (h2 : s.cachedGraph = none) (h3 : xs ≠ []) :
    (runForwards s xs).fwdCalls = s.fwdCalls + 1 := by
  cases xs with
  | nil => exact absurd rfl h3
  | cons x xs =>
      rw [runForwards_cons, forward_fresh s x h1 h2]
      have := runForwards_cached_counts xs
        { s with cachedGraph := some (traceNet s.layers "data"),
                 fwdCalls := s.fwdCalls + 1,
                 callLog := s.callLog ++ [(symbol.typeName, symbol.name)] }
        (traceNet s.layers "data") h1 rfl
      rw [this.1]

/-- Claim C2 witness: a freshly hybridized empty network run on two inputs
invokes the per-layer logic exactly once. -/
theorem c2_hybrid_forward_invoked_once_witness :
    (hybridize (mkNet [])).hybridized = true ∧
    (hybridize (mkNet [])).cachedGraph = none ∧
    ([([] : List (List ℚ)), []] ≠ ([] : List (List (List ℚ)))) ∧
    (runForwards (hybridize (mkNet [])) [[], []]).fwdCalls =
      (hybridize (mkNet [])).fwdCalls + 1 :=
  ⟨rfl, rfl, by simp,
    c2_hybrid_forward_invoked_once (hybridize (mkNet [])) [[], []] rfl rfl
      (by simp)⟩

/-- Claim C3: in compiled mode the first forward call runs the per-layer
logic on a symbolic placeholder through the symbolic backend — the layer
code observes a Symbol argument and the mxnet.symbol backend even though the
caller passed concrete data — and caches the recorded graph, all of whose
nodes are operations or parameters. -/
theorem c3_first_call_symbolic (s : NetState) (x : List (List ℚ))
    (h1 : s.hybridized = true) (h2 : s.cachedGraph = none) :
    (forward s x).2.cachedGraph = some (traceNet s.layers "data") ∧
    (forward s x).2.callLog =
      s.callLog ++ [(symbol.typeName, symbol.name)] ∧
    (symbol.typeName, symbol.name) = ("Symbol", "mxnet.symbol") ∧
    ∀ nd ∈ (traceNet s.layers "data").nodes,
      nd.op = Op.null ∨ (∃ k, nd.op = Op.fullyConnected k) ∨
        ∃ a, nd.op = Op.activation a := by
  rw [forward_fresh s x h1 h2]
  refine ⟨rfl, rfl, rfl, ?_⟩
  intro nd _
  cases h : nd.op with
  | null => exact Or.inl rfl
  | fullyConnected k => exact Or.inr (Or.inl ⟨k, rfl⟩)
  | activation a => exact Or.inr (Or.inr ⟨a, rfl⟩)

/-- Claim C3 witness: the first compiled call on a freshly hybridized empty
network caches the recorded trace and logs a Symbol observation. -/
theorem c3_first_call_symbolic_witness :
    (hybridize (mkNet [])).hybridized = true ∧
    (hybridize (mkNet [])).cachedGraph = none ∧
    (forward (hybridize (mkNet [])) []).2.cachedGraph =
      some (traceNet (hybridize (mkNet [])).layers "data") :=
  ⟨rfl, rfl, (c3_first_call_symbolic (hybridize (mkNet [])) [] rfl rfl).1⟩

/-- Claim C5: in eager mode every forward call re-executes every layer's
logic anew on the concrete input: over any sequence of calls the per-layer
logic runs once per call, each invocation observes concrete NDArray data and
the imperative backend, and each call's output is the sequential application
of the layers to the concrete input. -/
theorem c5_eager_reexecutes (s : NetState) (xs : List (List (List ℚ)))
    (h : s.hybridized = false) :
    (runForwards s xs).fwdCalls = s.fwdCalls + xs.length ∧
    (runForwards s xs).callLog =
      s.callLog ++ xs.map (fun _ => (ndarray.typeName, ndarray.name)) ∧
    ∀ x, (forward s x).1 = eagerForward s.layers x := by
  obtain ⟨hn, hlog⟩ := runForwards_eager_counts xs s h
  refine ⟨hn, hlog, ?_⟩
  intro x
  rw [forward_eager_eq s x h]

/-- Claim C5 witness: a fresh eager empty network run on two inputs invokes
the per-layer logic once per call. -/
theorem c5_eager_reexecutes_witness :
    (mkNet []).hybridized = false ∧
    (runForwards (mkNet []) [[], []]).fwdCalls =
      (mkNet []).fwdCalls + ([([] : List (List ℚ)), []]).length :=
  ⟨rfl, (c5_eager_reexecutes (mkNet []) [[], []] rfl).1⟩

/-- Claim C6: switching to compiled mode is one-way: over any sequence of
client operations the mode flag ends compiled exactly when it started
compiled or a hybridize switch occurred, so it is toggled at most once and a
compiled instance never returns to eager mode. -/
theorem c6_mode_switch_one_way (s : NetState) (ops : List NetOp) :
    (runOps s ops).hybridized = (s.hybridized || ops.any NetOp.isHyb) := by
  induction ops generalizing s with
  | nil => simp [runOps]
  | cons op ops ih =>
      have hstep : runOps s (op :: ops) = runOps (applyOp s op) ops := rfl
      cases op with
      | fwd x =>
          rw [hstep, ih]
          have : (applyOp s (NetOp.fwd x)).hybridized = s.hybridized :=
            forward_mode_eq s x
          rw [this]
          simp [NetOp.isHyb]
      | hyb =>
          rw [hstep, ih]
          simp [applyOp, hybridize, NetOp.isHyb]

/-- Claim C10: forward evaluation is deterministic: with layers and
parameters fixed, calling forward on an input, then any number of further
forward calls, then forward on the same input again returns the identical
output — in particular repeated eager calls and repeated compiled calls on
the same input agree exactly. -/
theorem c10_forward_deterministic (s : NetState) (x : List (List ℚ))
    (xs : List (List (List ℚ))) :
    (forward (runForwards ((forward s x).2) xs) x).1 = (forward s x).1 := by
  have h1 : evolvedFrom s ((forward s x).2) :=
    evolvedFrom_forward s s x ⟨rfl, rfl, Or.inl rfl⟩
  have h2 : evolvedFrom s (runForwards ((forward s x).2) xs) :=
    evolvedFrom_runForwards s xs ((forward s x).2) h1
  exact forward_out_eq s (runForwards ((forward s x).2) xs) x h2

end Hybridize

namespace Hybridize

lemma dense_weight_ne_nil (d : Dense) (hW : d.weight.length = d.num_hidden)
    (hnz : d.num_hidden ≠ 0) : d.weight ≠ [] := by
  intro hc
  apply hnz
  rw [← hW, hc]
  rfl

lemma eager_ok (ds : List Dense) : ∀ (k : Nat) (x : List (List ℚ)),
    netWf k ds → (∀ r ∈ x, r.length = k) →
    ∃ y, hybrid_forward ndarray ds (some x) = some y ∧
      y.length = x.length ∧ ∀ r ∈ y, r.length = outDim k ds := by
  induction ds with
  | nil => intro k x _ hin; exact ⟨x, rfl, rfl, hin⟩
  | cons d ds ih =>
      intro k x hwf hin
      obtain ⟨⟨hW, hnz, hWr, hb⟩, hwf2⟩ := hwf
      have hne := dense_weight_ne_nil d hW hnz
      obtain ⟨y1, hy1, hlen1, hr1⟩ :=
        denseApply_ndarray_ok d x k hne hWr hW hb hin
      obtain ⟨y, hy, hlen, hr⟩ := ih d.num_hidden y1 hwf2 hr1
      refine ⟨y, ?_, ?_, hr⟩
      · rw [hybrid_forward_cons, hy1]
        exact hy
      · rw [hlen, hlen1]

lemma eager_fails (d : Dense) (ds : List Dense) (k : Nat)
    (x : List (List ℚ)) (hne : d.weight ≠ [])
    (hWr : ∀ r ∈ d.weight, r.length = k)
    (hmis : ¬ ∀ r ∈ x, r.length = k) :
    hybrid_forward ndarray (d :: ds) (some x) = none := by
  have hid : inDim d.weight = k := inDim_eq d.weight k hne hWr
  have hfc : fullyConnectedOp x d.weight d.bias = none := by
    rw [fullyConnectedOp, if_neg]
    intro hall
    apply hmis
    rw [List.all_eq_true] at hall
    intro r hr
    have := hall r hr
    simpa [hid] using this
  rw [hybrid_forward_cons]
  have hda : denseApply ndarray d (some x) = none := by
    cases ha : d.act <;> simp [denseApply, ndarray, ha, hfc]
  rw [hda, hybrid_forward_ndarray_none]

end Hybridize

namespace Hybridize

lemma zeros_length (m n : Nat) : (zeros m n).length = m := by
  simp only [zeros, List.length_replicate]

lemma zeros_rows (m n : Nat) : ∀ r ∈ zeros m n, r.length = n := by
  intro r hr
  simp only [zeros] at hr
  rw [List.eq_of_mem_replicate hr, List.length_replicate]

lemma zvec_length (m : Nat) : (zvec m).length = m := by
  simp only [zvec, List.length_replicate]

/-- Claim C4: the 3-layer network with layer sizes 512, 256, 128, 2 maps any
single input of shape (1, 512) to an output of shape (1, 2), in eager mode
and in compiled mode, and the two outputs are equal. -/
theorem c4_fixed_shapes (W1 : List (List ℚ)) (b1 : List ℚ)
    (W2 : List (List ℚ)) (b2 : List ℚ) (W3 : List (List ℚ)) (b3 : List ℚ)
    (x : List (List ℚ))
    (hW1 : W1.length = 256) (hW1r : ∀ r ∈ W1, r.length = 512)
    (hb1 : b1.length = 256)
    (hW2 : W2.length = 128) (hW2r : ∀ r ∈ W2, r.length = 256)
    (hb2 : b2.length = 128)
    (hW3 : W3.length = 2) (hW3r : ∀ r ∈ W3, r.length = 128)
    (hb3 : b3.length = 2)
    (hx : x.length = 1) (hxr : ∀ r ∈ x, r.length = 512) :
    ∃ y, (forward (get_net W1 b1 W2 b2 W3 b3) x).1 = some y ∧
      (forward (hybridize (get_net W1 b1 W2 b2 W3 b3)) x).1 = some y ∧
      y.length = 1 ∧ ∀ r ∈ y, r.length = 2 := by
  have hwf : netWf 512 (get_net W1 b1 W2 b2 W3 b3).layers :=
    ⟨⟨hW1, by simp, hW1r, hb1⟩, ⟨hW2, by simp, hW2r, hb2⟩,
     ⟨hW3, by simp, hW3r, hb3⟩, trivial⟩
  obtain ⟨y, hy, hlen, hr⟩ :=
    eager_ok (get_net W1 b1 W2 b2 W3 b3).layers 512 x hwf hxr
  refine ⟨y, ?_, ?_, ?_, hr⟩
  · rw [forward_eager_eq _ x rfl]
    exact hy
  · rw [forward_fresh _ x rfl rfl,
      evalGraph_traceNet (hybridize (get_net W1 b1 W2 b2 W3 b3)).layers
        "data" x (get_net_resolvable W1 b1 W2 b2 W3 b3)]
    exact hy
  · rw [hlen, hx]

/-- Claim C4 witness: the all-zero instance of the 3-layer network on the
all-zero (1, 512) input. -/
theorem c4_fixed_shapes_witness :
    (zeros 256 512).length = 256 ∧ (∀ r ∈ zeros 256 512, r.length = 512) ∧
    (zvec 256).length = 256 ∧
    (zeros 128 256).length = 128 ∧ (∀ r ∈ zeros 128 256, r.length = 256) ∧
    (zvec 128).length = 128 ∧
    (zeros 2 128).length = 2 ∧ (∀ r ∈ zeros 2 128, r.length = 128) ∧
    (zvec 2).length = 2 ∧
    (zeros 1 512).length = 1 ∧ (∀ r ∈ zeros 1 512, r.length = 512) ∧
    ∃ y, (forward (get_net (zeros 256 512) (zvec 256) (zeros 128 256)
        (zvec 128) (zeros 2 128) (zvec 2)) (zeros 1 512)).1 = some y ∧
      (forward (hybridize (get_net (zeros 256 512) (zvec 256) (zeros 128 256)
        (zvec 128) (zeros 2 128) (zvec 2))) (zeros 1 512)).1 = some y ∧
      y.length = 1 ∧ ∀ r ∈ y, r.length = 2 :=
  ⟨zeros_length 256 512, zeros_rows 256 512, zvec_length 256,
   zeros_length 128 256, zeros_rows 128 256, zvec_length 128,
   zeros_length 2 128, zeros_rows 2 128, zvec_length 2,
   zeros_length 1 512, zeros_rows 1 512,
   c4_fixed_shapes (zeros 256 512) (zvec 256) (zeros 128 256) (zvec 128)
     (zeros 2 128) (zvec 2) (zeros 1 512)
     (zeros_length 256 512) (zeros_rows 256 512) (zvec_length 256)
     (zeros_length 128 256) (zeros_rows 128 256) (zvec_length 128)
     (zeros_length 2 128) (zeros_rows 2 128) (zvec_length 2)
     (zeros_length 1 512) (zeros_rows 1 512)⟩

/-- Claim C7: forward evaluation fails exactly on inputs whose row width is
incompatible with the network's first layer, in eager mode and on the first
compiled call alike; every shape-compatible input succeeds and every
incompatible input fails immediately. -/
theorem c7_fail_iff_shape_mismatch (k : Nat) (d : Dense) (ds : List Dense)
    (x : List (List ℚ)) (hwf : netWf k (d :: ds))
    (hres : paramsResolvable (d :: ds) "data") :
    (eagerForward (d :: ds) x = none ↔ ¬ ∀ r ∈ x, r.length = k) ∧
    ((forward (hybridize (mkNet (d :: ds))) x).1 = none ↔
      ¬ ∀ r ∈ x, r.length = k) := by
  have hcompiled : (forward (hybridize (mkNet (d :: ds))) x).1 =
      eagerForward (d :: ds) x := by
    rw [forward_fresh _ x rfl rfl]
    exact evalGraph_traceNet (d :: ds) "data" x hres
  have hmain : eagerForward (d :: ds) x = none ↔
      ¬ ∀ r ∈ x, r.length = k := by
    constructor
    · intro hn hall
      obtain ⟨y, hy, _, _⟩ := eager_ok (d :: ds) k x hwf hall
      have hn2 : hybrid_forward ndarray (d :: ds) (some x) = none := hn
      rw [hy] at hn2
      cases hn2
    · intro hmis
      obtain ⟨⟨hW, hnz, hWr, _⟩, _⟩ := hwf
      exact eager_fails d ds k x (dense_weight_ne_nil d hW hnz) hWr hmis
  exact ⟨hmain, by rw [hcompiled]; exact hmain⟩

/-- Claim C7 witness: a well-formed one-layer network on a mismatched
input. -/
theorem c7_fail_iff_shape_mismatch_witness :
    netWf 1 [(⟨"d0", 1, [[1]], [0], false⟩ : Dense)] ∧
    paramsResolvable [(⟨"d0", 1, [[1]], [0], false⟩ : Dense)] "data" ∧
    (eagerForward [(⟨"d0", 1, [[1]], [0], false⟩ : Dense)] [[5, 7]] = none ↔
      ¬ ∀ r ∈ [[(5 : ℚ), 7]], r.length = 1) := by
  have hwf : netWf 1 [(⟨"d0", 1, [[1]], [0], false⟩ : Dense)] :=
    ⟨⟨rfl, by decide, by simp, rfl⟩, trivial⟩
  have hres : paramsResolvable [(⟨"d0", 1, [[1]], [0], false⟩ : Dense)]
      "data" := by
    intro d hd
    simp at hd
    subst hd
    exact ⟨by simp, by simp, by simp [paramLookup], by simp [paramLookup]⟩
  exact ⟨hwf, hres,
    (c7_fail_iff_shape_mismatch 1 ⟨"d0", 1, [[1]], [0], false⟩ [] [[5, 7]]
      hwf hres).1⟩

/-- Claim C9: feeding the 3-layer network a symbolic placeholder named data
returns a graph description with exactly 12 nodes in topological order — the
data input, then for each dense layer its weight node, bias node and
FullyConnected node, followed by a relu Activation node for the first two
layers — with a single output head, the last FullyConnected node, and
argument nodes exactly the data input and the six parameters. -/
theorem c9_symbolic_graph (W1 : List (List ℚ)) (b1 : List ℚ)
    (W2 : List (List ℚ)) (b2 : List ℚ) (W3 : List (List ℚ)) (b3 : List ℚ) :
    traceNet (get_net W1 b1 W2 b2 W3 b3).layers "data" =
      { nodes :=
          [ ⟨Op.null, "data", []⟩,
            ⟨Op.null, "hybridsequential1_dense0_weight", []⟩,
            ⟨Op.null, "hybridsequential1_dense0_bias", []⟩,
            ⟨Op.fullyConnected 256, "hybridsequential1_dense0_fwd",
              [0, 1, 2]⟩,
            ⟨Op.activation "relu", "hybridsequential1_dense0_relu_fwd", [3]⟩,
            ⟨Op.null, "hybridsequential1_dense1_weight", []⟩,
            ⟨Op.null, "hybridsequential1_dense1_bias", []⟩,
            ⟨Op.fullyConnected 128, "hybridsequential1_dense1_fwd",
              [4, 5, 6]⟩,
            ⟨Op.activation "relu", "hybridsequential1_dense1_relu_fwd", [7]⟩,
            ⟨Op.null, "hybridsequential1_dense2_weight", []⟩,
            ⟨Op.null, "hybridsequential1_dense2_bias", []⟩,
            ⟨Op.fullyConnected 2, "hybridsequential1_dense2_fwd",
              [8, 9, 10]⟩ ],
        arg_nodes := [0, 1, 2, 5, 6, 9, 10],
        heads := [11] } ∧
    topoOk (traceNet (get_net W1 b1 W2 b2 W3 b3).layers "data") = true :=
  ⟨rfl, rfl⟩

end Hybridize
